import Mathlib

/-!
Verification development for the bitmask engine specified in `spec.md` of the
repository owning `src_c/include/pygame_mask.h`.

The visible C source is only the binding header (`pgMaskObject`,
`pgMask_AsBitmap`); the engine itself (BitGrid storage, overlap queries,
component labelling, contour tracing, morphology) is specified but its C file
is not part of the provided sources, so the engine is modelled here from the
specification text.  Bits are packed row-major into fixed-width words; a word
is modelled as a `Nat` of which only the low `wordBits` bits are used.
-/

/-- Modelled from the spec: the fixed word width used by the bit-packed rows
(the spec fixes no particular width, only that it is a constant). -/
def wordBits : Nat := 8

/-- Pack a list of bits, least significant first, into a natural number. -/
def pack : List Bool → Nat
  | [] => 0
  | b :: l => (if b then 1 else 0) + 2 * pack l

/-- Modelled from the spec: the stable per-row word count for a row of
`w` bits (`⌈w / wordBits⌉`). -/
def rowWords (w : Nat) : Nat := (w + wordBits - 1) / wordBits

/-- Modelled from the spec: build one packed scanline for bit values
`f 0, …, f (w-1)`; padding bits beyond `w` are zero. -/
def buildRow (w : Nat) (f : Nat → Bool) : List Nat :=
  (List.range (rowWords w)).map
    (fun j => pack ((((List.range w).map f).drop (j * wordBits)).take wordBits))

/-- Modelled from the spec: a dense bit-packed 2D boolean grid.
`rows` holds `height` scanlines, each a list of `rowWords width` words. -/
structure BitGrid where
  width : Nat
  height : Nat
  rows : List (List Nat)
deriving DecidableEq, Repr

/-- Modelled from the spec: build a grid whose bit at `(x, y)` is `f x y`. -/
def buildG (w h : Nat) (f : Nat → Nat → Bool) : BitGrid :=
  ⟨w, h, (List.range h).map (fun y => buildRow w (fun x => f x y))⟩

/-- Modelled from the spec: `get(x,y)`; out-of-range coordinates return
`false` (a grid is conceptually infinite-false outside its bounds). -/
def BitGrid.get (g : BitGrid) (x y : Int) : Bool :=
  if 0 ≤ x ∧ x < g.width ∧ 0 ≤ y ∧ y < g.height then
    Nat.testBit ((g.rows.getD y.toNat []).getD (x.toNat / wordBits) 0)
      (x.toNat % wordBits)
  else false

/-- Set or clear one bit inside a single storage word. -/
def setWordBit (word : Nat) (b : Nat) (v : Bool) : Nat :=
  if v then word ||| 2 ^ b else word.ldiff (2 ^ b)

/-- Modelled from the spec: `set(x,y,value)` mutates one bit in place;
out-of-range coordinates are a no-op. -/
def BitGrid.set (g : BitGrid) (x y : Int) (v : Bool) : BitGrid :=
  if 0 ≤ x ∧ x < g.width ∧ 0 ≤ y ∧ y < g.height then
    let row := g.rows.getD y.toNat []
    let j := x.toNat / wordBits
    let row2 := row.set j (setWordBit (row.getD j 0) (x.toNat % wordBits) v)
    ⟨g.width, g.height, g.rows.set y.toNat row2⟩
  else g

/-- Modelled from the spec: `fill()` sets every addressable bit to 1. -/
def BitGrid.fill (g : BitGrid) : BitGrid :=
  buildG g.width g.height (fun _ _ => true)

/-- Modelled from the spec: `clear()` sets every addressable bit to 0. -/
def BitGrid.clear (g : BitGrid) : BitGrid :=
  buildG g.width g.height (fun _ _ => false)

/-- Population count of the low `wordBits` bits of one word. -/
def wordPop (x : Nat) : Nat := (List.range wordBits).countP (fun b => x.testBit b)

/-- Modelled from the spec: `count()`, the number of set bits, computed as a
sum of per-word population counts. -/
def BitGrid.count (g : BitGrid) : Nat :=
  (g.rows.map (fun row => (row.map wordPop).sum)).sum

/-- Modelled from the spec: the error taxonomy of the engine. -/
inductive MaskError
  | InvalidDimension
  | EmptyRegion
deriving DecidableEq, Repr

/-- Modelled from the spec: `create(width, height)` returns a zero-filled
grid, or fails with `InvalidDimension` when a dimension is negative. -/
def create (w h : Int) : Except MaskError BitGrid :=
  if w < 0 ∨ h < 0 then .error .InvalidDimension
  else .ok (buildG w.toNat h.toNat (fun _ _ => false))

/-- All in-range coordinates of a `w × h` grid, in row-major order. -/
def cellList (w h : Nat) : List (Int × Int) :=
  (List.range h).flatMap
    (fun y => (List.range w).map (fun x => (Int.ofNat x, Int.ofNat y)))

/-- The in-range coordinates of a grid, row-major. -/
def BitGrid.cells (g : BitGrid) : List (Int × Int) := cellList g.width g.height

/-- Modelled from the spec: the four combine operations. -/
inductive BitOp
  | and
  | or
  | xor
  | diff
deriving DecidableEq, Repr

/-- Bit-level meaning of a combine operation (`diff` is `this AND NOT other`). -/
def applyOp : BitOp → Bool → Bool → Bool
  | .and, a, b => a && b
  | .or, a, b => a || b
  | .xor, a, b => a != b
  | .diff, a, b => a && !b

/-- Modelled from the spec: `combine(other, op, offset_x, offset_y)`: for every
coordinate `(x,y)` of `this`, look up `other.get (x-ox) (y-oy)` and apply
`op` on the bit of `this`. -/
def BitGrid.combine (g : BitGrid) (other : BitGrid) (op : BitOp) (ox oy : Int) : BitGrid :=
  buildG g.width g.height
    (fun x y => applyOp op (g.get x y) (other.get ((x : Int) - ox) ((y : Int) - oy)))

/-- Modelled from the spec: `overlap_area(other, dx, dy)`, the number of bit
positions where both grids are set under the given offset. -/
def overlapArea (a b : BitGrid) (dx dy : Int) : Nat :=
  a.cells.countP (fun c => a.get c.1 c.2 && b.get (c.1 - dx) (c.2 - dy))

/-- Modelled from the spec: `overlap_exists(other, dx, dy)`. -/
def overlapExists (a b : BitGrid) (dx dy : Int) : Bool :=
  a.cells.any (fun c => a.get c.1 c.2 && b.get (c.1 - dx) (c.2 - dy))

/-- Modelled from the spec: `first_overlap_point(other, dx, dy)`, first
matching coordinate of `this` in row-major order. -/
def firstOverlapPoint (a b : BitGrid) (dx dy : Int) : Option (Int × Int) :=
  a.cells.find? (fun c => a.get c.1 c.2 && b.get (c.1 - dx) (c.2 - dy))

/-- The eight neighbour offsets, in the fixed clockwise order used by the
contour tracer and morphology. -/
def mooreOffsets : List (Int × Int) :=
  [(1, 0), (1, 1), (0, 1), (-1, 1), (-1, 0), (-1, -1), (0, -1), (1, -1)]

/-- Modelled from the spec: `dilate()`: bit set iff it or any 8-neighbour is
set in the source (out-of-range neighbours are unset). -/
def BitGrid.dilate (g : BitGrid) : BitGrid :=
  buildG g.width g.height
    (fun x y => g.get x y ||
      mooreOffsets.any (fun d => g.get ((x : Int) + d.1) ((y : Int) + d.2)))

/-- Modelled from the spec: `erode()`: bit set iff it and all 8-neighbours are
set in the source (out-of-range neighbours are unset). -/
def BitGrid.erode (g : BitGrid) : BitGrid :=
  buildG g.width g.height
    (fun x y => g.get x y &&
      mooreOffsets.all (fun d => g.get ((x : Int) + d.1) ((y : Int) + d.2)))

/-- Modelled from the spec: connectivity mode of the component labeller. -/
inductive Connectivity
  | four
  | eight
deriving DecidableEq, Repr

/-- Neighbour offsets of a connectivity mode. -/
def connOffsets : Connectivity → List (Int × Int)
  | .four => [(0, -1), (-1, 0), (1, 0), (0, 1)]
  | .eight => mooreOffsets

/-- Neighbours of a cell under a connectivity mode. -/
def nbrs (conn : Connectivity) (c : Int × Int) : List (Int × Int) :=
  (connOffsets conn).map (fun d => (c.1 + d.1, c.2 + d.2))

/-- Modelled from the spec: breadth-first flood fill collecting one component.
`vis` holds cells labelled by earlier components, `comp` the cells collected
so far; `fuel` bounds the number of queue steps. -/
def floodFill (g : BitGrid) (conn : Connectivity) :
    Nat → List (Int × Int) → List (Int × Int) → List (Int × Int) → List (Int × Int)
  | 0, _, _, comp => comp
  | _ + 1, [], _, comp => comp
  | fuel + 1, c :: queue, vis, comp =>
    if g.get c.1 c.2 = true ∧ c ∉ vis ∧ c ∉ comp then
      floodFill g conn fuel (queue ++ nbrs conn c) vis (comp ++ [c])
    else
      floodFill g conn fuel queue vis comp

/-- Modelled from the spec: the labeller's outer row-major scan; seeds a flood
fill at every set, still-unlabelled cell.  The fuel `8 * (width * height) + 1`
covers every queue pop a full breadth-first fill can make: at most
`width * height` distinct cells are ever accepted, each enqueues at most 8
neighbours on top of the initial seed, so the queue empties before the fuel
does and the fill always runs to completion.  Returns the final labelled-cell
list together with the components in seed order. -/
def labelScan (g : BitGrid) (conn : Connectivity) :
    List (Int × Int) → List (Int × Int) → List (List (Int × Int)) →
      List (Int × Int) × List (List (Int × Int))
  | [], vis, acc => (vis, acc)
  | c :: rest, vis, acc =>
    if g.get c.1 c.2 = true ∧ c ∉ vis then
      let comp := floodFill g conn (8 * (g.width * g.height) + 1) [c] vis []
      labelScan g conn rest (vis ++ comp) (acc ++ [comp])
    else
      labelScan g conn rest vis acc

/-- Lexicographic order on coordinates by `(y, x)`. -/
def lexLeYX (a b : Int × Int) : Bool :=
  decide (a.2 < b.2) || (decide (a.2 = b.2) && decide (a.1 ≤ b.1))

/-- The lexicographically-smallest member of a component in `(y, x)` order. -/
def minYX : List (Int × Int) → Int × Int
  | [] => (0, 0)
  | c :: rest => rest.foldl (fun m d => if lexLeYX m d then m else d) c

/-- Modelled from the spec: the component ordering — descending by size, ties
broken by the smaller lexicographically-smallest member in `(y, x)` order. -/
def compLE (a b : List (Int × Int)) : Bool :=
  decide (b.length < a.length) ||
    (decide (a.length = b.length) && lexLeYX (minYX a) (minYX b))

/-- Modelled from the spec: `ComponentLabeler`: flood-fill components of the
set bits in row-major seed order, sorted largest-first with the documented
tie-break. -/
def componentLabeler (g : BitGrid) (conn : Connectivity) : List (List (Int × Int)) :=
  ((labelScan g conn g.cells [] []).2).mergeSort compLE

/-- First set bit of the grid in row-major order. -/
def findFirstBit (g : BitGrid) : Option (Int × Int) :=
  g.cells.find? (fun c => g.get c.1 c.2)

/-- Scan the 8-neighbourhood of `c` clockwise starting at direction `start`;
return the first offset index (relative to `start`) whose neighbour is set. -/
def findDir (g : BitGrid) (c : Int × Int) (start : Nat) : Option Nat :=
  (List.range 8).find? (fun k =>
    g.get (c.1 + (mooreOffsets.getD ((start + k) % 8) (0, 0)).1)
      (c.2 + (mooreOffsets.getD ((start + k) % 8) (0, 0)).2))

/-- Modelled from the spec: the Moore boundary-following walk.  Stops when no
set neighbour exists (an isolated pixel) or when the walk returns to the
starting point; `fuel` bounds the number of steps. -/
def mooreLoop (g : BitGrid) :
    Nat → (Int × Int) → Nat → (Int × Int) → List (Int × Int) → List (Int × Int)
  | 0, _, _, _, acc => acc
  | fuel + 1, cur, dir, start, acc =>
    match findDir g cur dir with
    | none => acc
    | some k =>
      let nd := (dir + k) % 8
      let d := mooreOffsets.getD nd (0, 0)
      let nxt := (cur.1 + d.1, cur.2 + d.2)
      if nxt = start then acc
      else mooreLoop g fuel nxt ((nd + 6) % 8) start (acc ++ [nxt])

/-- Modelled from the spec: `ContourTracer`: fails with `EmptyRegion` when the
grid has no set bits, otherwise traces the outline starting at the first set
bit in row-major order. -/
def contourTrace (g : BitGrid) : Except MaskError (List (Int × Int)) :=
  match findFirstBit g with
  | none => .error .EmptyRegion
  | some p => .ok (mooreLoop g (g.width * g.height * 8 + 8) p 0 p [p])

/-- Modelled from the spec: the in-place combine loop rendered with explicit
state passing: the state is the pair (this, other) and every iteration writes
one bit of `this` and only reads `other`. -/
def combineLoop (s : BitGrid × BitGrid) (op : BitOp) (ox oy : Int) : BitGrid × BitGrid :=
  (cellList s.1.width s.1.height).foldl
    (fun st c =>
      (st.1.set c.1 c.2
        (applyOp op (st.1.get c.1 c.2) (st.2.get (c.1 - ox) (c.2 - oy))), st.2))
    s

/-- Modelled from the spec: the overlap-area scan with explicit state passing;
each iteration only reads the two grids and bumps the counter. -/
def overlapAreaLoop (s : BitGrid × BitGrid) (dx dy : Int) : Nat × (BitGrid × BitGrid) :=
  (cellList s.1.width s.1.height).foldl
    (fun st c =>
      (st.1 + (if st.2.1.get c.1 c.2 && st.2.2.get (c.1 - dx) (c.2 - dy) then 1 else 0),
       st.2))
    (0, s)

/-- Modelled from the spec: the overlap-existence scan with explicit state
passing. -/
def overlapExistsLoop (s : BitGrid × BitGrid) (dx dy : Int) : Bool × (BitGrid × BitGrid) :=
  (cellList s.1.width s.1.height).foldl
    (fun st c =>
      (st.1 || (st.2.1.get c.1 c.2 && st.2.2.get (c.1 - dx) (c.2 - dy)), st.2))
    (false, s)

/-- Modelled from the spec: the first-overlap-point scan with explicit state
passing. -/
def firstOverlapLoop (s : BitGrid × BitGrid) (dx dy : Int) :
    Option (Int × Int) × (BitGrid × BitGrid) :=
  (cellList s.1.width s.1.height).foldl
    (fun st c =>
      (match st.1 with
       | some p => some p
       | none =>
         if st.2.1.get c.1 c.2 && st.2.2.get (c.1 - dx) (c.2 - dy) then some c
         else none,
       st.2))
    (none, s)

/-- The binding struct of `pygame_mask.h`: a managed-object header followed by
the opaque bitmask handle and a buffer pointer; the header word and the two
pointers are modelled as machine words. -/
structure pgMaskObject where
  ob_base : Nat
  mask : Nat
  bufdata : Nat
deriving DecidableEq, Repr

/-- The macro `pgMask_AsBitmap(x)`, `((pgMaskObject *)x)->mask`, rendered with
explicit state passing: it yields the value of the `mask` field together with
the (unchanged) object state. -/
def pgMask_AsBitmap (x : pgMaskObject) : Nat × pgMaskObject := (x.mask, x)

/-- Modelled from the spec: the storage invariant — every row has the stable
per-row word count and all bits of a word that lie beyond the grid width (or
beyond the word width) are zero. -/
def padded (g : BitGrid) : Prop :=
  g.rows.length = g.height ∧
    ∀ row ∈ g.rows, row.length = rowWords g.width ∧
      ∀ j b : Nat, (wordBits ≤ b ∨ g.width ≤ j * wordBits + b) →
        Nat.testBit (row.getD j 0) b = false

/-- Modelled from the spec: the grids reachable through the public BitGrid
operations (creation followed by any sequence of mutating operations). -/
inductive Reachable : BitGrid → Prop
  | ofCreate (w h : Int) (g : BitGrid) : create w h = .ok g → Reachable g
  | ofSet (g : BitGrid) (x y : Int) (v : Bool) : Reachable g → Reachable (g.set x y v)
  | ofFill (g : BitGrid) : Reachable g → Reachable g.fill
  | ofClear (g : BitGrid) : Reachable g → Reachable g.clear
  | ofCombine (g other : BitGrid) (op : BitOp) (ox oy : Int) :
      Reachable g → Reachable (g.combine other op ox oy)
  | ofDilate (g : BitGrid) : Reachable g → Reachable g.dilate
  | ofErode (g : BitGrid) : Reachable g → Reachable g.erode

theorem testBit_pack (l : List Bool) (i : Nat) : (pack l).testBit i = l.getD i false := by
  induction l generalizing i with
  | nil => simp [pack]
  | cons b t ih =>
    cases i with
    | zero =>
      cases b <;> simp [pack, Nat.testBit_zero]
    | succ i =>
      have hdiv : ((if b then 1 else 0) + 2 * pack t) / 2 = pack t := by
        cases b
        · simp
        · simp
          omega
      simp [pack, Nat.testBit_succ, hdiv, ih]

theorem pack_lt (l : List Bool) : pack l < 2 ^ l.length := by
  induction l with
  | nil => simp [pack]
  | cons b t ih =>
    cases b <;> simp [pack, pow_succ] <;> omega

theorem getD_map_range (w : Nat) (f : Nat → Bool) (i : Nat) :
    ((List.range w).map f).getD i false = if i < w then f i else false := by
  rcases lt_or_le i w with h | h
  · rw [List.getD_eq_getElem?_getD, List.getElem?_map, List.getElem?_range h]
    simp [h]
  · rw [List.getD_eq_getElem?_getD, List.getElem?_eq_none (by simpa using h)]
    simp [Nat.not_lt.mpr h]

theorem buildRow_length (w : Nat) (f : Nat → Bool) :
    (buildRow w f).length = rowWords w := by
  simp [buildRow]

theorem buildRow_testBit (w : Nat) (f : Nat → Bool) (j b : Nat) :
    Nat.testBit ((buildRow w f).getD j 0) b =
      if j * wordBits + b < w ∧ b < wordBits then f (j * wordBits + b) else false := by
  rcases lt_or_le j (rowWords w) with hj | hj
  · have hrow : (buildRow w f).getD j 0 =
        pack ((((List.range w).map f).drop (j * wordBits)).take wordBits) := by
      rw [buildRow, List.getD_eq_getElem?_getD, List.getElem?_map, List.getElem?_range hj]
      simp
    rw [hrow, testBit_pack]
    rcases lt_or_le b wordBits with hb | hb
    · rw [List.getD_eq_getElem?_getD, List.getElem?_take, if_pos hb, List.getElem?_drop,
        ← List.getD_eq_getElem?_getD, getD_map_range]
      by_cases hlt : j * wordBits + b < w
      · simp [hlt, hb]
      · simp [hlt, hb]
    · rw [List.getD_eq_getElem?_getD, List.getElem?_take, if_neg (by omega)]
      simp
      omega
  · have hz : (buildRow w f).getD j 0 = 0 := by
      rw [List.getD_eq_getElem?_getD,
        List.getElem?_eq_none (by rw [buildRow_length]; omega)]
      rfl
    rw [hz, Nat.zero_testBit]
    have : ¬(j * wordBits + b < w ∧ b < wordBits) := by
      rintro ⟨h1, h2⟩
      have : j * wordBits < w := by omega
      simp [rowWords, wordBits] at hj this
      omega
    simp [this]

theorem buildG_width (w h : Nat) (f : Nat → Nat → Bool) : (buildG w h f).width = w := rfl

theorem buildG_height (w h : Nat) (f : Nat → Nat → Bool) : (buildG w h f).height = h := rfl

theorem buildG_row (w h : Nat) (f : Nat → Nat → Bool) (y : Nat) (hy : y < h) :
    (buildG w h f).rows.getD y [] = buildRow w (fun x => f x y) := by
  rw [buildG, List.getD_eq_getElem?_getD, List.getElem?_map, List.getElem?_range hy]
  simp

theorem get_buildG (w h : Nat) (f : Nat → Nat → Bool) (x y : Int) :
    (buildG w h f).get x y =
      if 0 ≤ x ∧ x < (w : Int) ∧ 0 ≤ y ∧ y < (h : Int) then f x.toNat y.toNat
      else false := by
  rw [BitGrid.get, buildG_width, buildG_height]
  by_cases hin : 0 ≤ x ∧ x < (w : Int) ∧ 0 ≤ y ∧ y < (h : Int)
  · rw [if_pos hin, if_pos hin]
    obtain ⟨hx0, hxw, hy0, hyh⟩ := hin
    have hyn : y.toNat < h := by omega
    have hxn : x.toNat < w := by omega
    rw [buildG_row w h f y.toNat hyn, buildRow_testBit]
    have hdm : x.toNat / wordBits * wordBits + x.toNat % wordBits = x.toNat := by
      simp [wordBits]; omega
    have hm : x.toNat % wordBits < wordBits := by simp [wordBits]; omega
    rw [hdm, if_pos ⟨hxn, hm⟩]
  · rw [if_neg hin, if_neg hin]

theorem mem_cellList (w h : Nat) (c : Int × Int) :
    c ∈ cellList w h ↔ 0 ≤ c.1 ∧ c.1 < (w : Int) ∧ 0 ≤ c.2 ∧ c.2 < (h : Int) := by
  obtain ⟨x, y⟩ := c
  simp only [cellList, List.mem_flatMap, List.mem_map, List.mem_range, Prod.mk.injEq,
    Int.ofNat_eq_natCast]
  constructor
  · rintro ⟨b, hb, a, ha, rfl, rfl⟩
    omega
  · rintro ⟨hx0, hxw, hy0, hyh⟩
    exact ⟨y.toNat, by omega, x.toNat, by omega, by omega, by omega⟩

theorem nodup_cellList (w h : Nat) : (cellList w h).Nodup := by
  rw [cellList, List.flatMap_def, List.nodup_flatten]
  constructor
  · intro l hl
    rw [List.mem_map] at hl
    obtain ⟨y, hy, rfl⟩ := hl
    refine List.Nodup.map ?_ (List.nodup_range w)
    intro a b hab
    have h1 := congrArg Prod.fst hab
    simp only [Int.ofNat_eq_natCast] at h1
    exact_mod_cast h1
  · rw [List.pairwise_map]
    refine (List.pairwise_lt_range h).imp ?_
    intro a b hab c hc1 hc2
    simp only [List.mem_map, List.mem_range] at hc1 hc2
    obtain ⟨x1, _, rfl⟩ := hc1
    obtain ⟨x2, _, h2⟩ := hc2
    have h3 := congrArg Prod.snd h2
    simp only [Int.ofNat_eq_natCast] at h3
    omega

theorem get_out_of_range (g : BitGrid) (x y : Int)
    (h : ¬(0 ≤ x ∧ x < (g.width : Int) ∧ 0 ≤ y ∧ y < (g.height : Int))) :
    g.get x y = false := by
  rw [BitGrid.get, if_neg h]

theorem mem_cells_of_get (g : BitGrid) {x y : Int} (h : g.get x y = true) :
    (x, y) ∈ cellList g.width g.height := by
  rw [mem_cellList]
  by_contra hc
  rw [get_out_of_range g x y (by simpa using hc)] at h
  exact Bool.false_ne_true h

theorem countP_cellList (w h : Nat) (p : Int × Int → Bool) :
    (cellList w h).countP p =
      ((List.range h).map
        (fun y => (List.range w).countP (fun x => p (Int.ofNat x, Int.ofNat y)))).sum := by
  rw [cellList, List.countP_flatMap]
  congr 1
  refine List.map_congr_left ?_
  intro y _
  simp only [Function.comp_apply]
  rw [List.countP_map]
  rfl

theorem map_getD_range {α : Type} (l : List α) (d : α) :
    (List.range l.length).map (fun i => l.getD i d) = l := by
  induction l with
  | nil => simp
  | cons a t ih =>
    rw [List.length_cons, List.range_succ_eq_map, List.map_cons, List.map_map]
    have : ((fun i => (a :: t).getD i d) ∘ Nat.succ) = fun i => t.getD i d := by
      funext i
      simp [List.getD]
    rw [this, ih]
    simp [List.getD]

theorem rowPop_eq_countP (row : List Nat) (w : Nat)
    (hlen : row.length = rowWords w)
    (hpad : ∀ j b : Nat, (wordBits ≤ b ∨ w ≤ j * wordBits + b) →
      Nat.testBit (row.getD j 0) b = false) :
    (row.map wordPop).sum =
      (List.range w).countP
        (fun x => Nat.testBit (row.getD (x / wordBits) 0) (x % wordBits)) := by
  induction row generalizing w with
  | nil =>
    have hw : w = 0 := by simp [rowWords, wordBits] at hlen; omega
    subst hw
    simp
  | cons word rest ih =>
    have hw1 : 1 ≤ w := by
      by_contra hc
      have hz : w = 0 := by omega
      subst hz
      simp [rowWords, wordBits] at hlen
    rcases le_or_lt w wordBits with hw | hw
    · have h1 : rowWords w = 1 := by
        simp only [rowWords, wordBits] at *
        omega
      have hrest : rest = [] := by
        rw [h1] at hlen
        simpa using List.length_eq_zero.mp (by simpa using hlen)
      subst hrest
      simp only [List.map_cons, List.map_nil, List.sum_cons, List.sum_nil, Nat.add_zero]
      have hr : List.range wordBits =
          List.range w ++ (List.range (wordBits - w)).map (fun b => w + b) := by
        rw [← List.range_add]
        congr 1
        omega
      rw [wordPop, hr, List.countP_append]
      have hzero : ((List.range (wordBits - w)).map (fun b => w + b)).countP
          (fun b => word.testBit b) = 0 := by
        rw [List.countP_map, List.countP_eq_zero]
        intro a _
        simp only [Function.comp_apply]
        have hb := hpad 0 (w + a) (Or.inr (by omega))
        simpa using hb
      rw [hzero, Nat.add_zero]
      refine List.countP_congr ?_
      intro x hx
      rw [List.mem_range] at hx
      have hdiv : x / wordBits = 0 := Nat.div_eq_of_lt (by omega)
      have hmod : x % wordBits = x := Nat.mod_eq_of_lt (by omega)
      rw [hdiv, hmod, List.getD_cons_zero]
    · have hlen' : rest.length = rowWords (w - wordBits) := by
        have h1 : rowWords w = rowWords (w - wordBits) + 1 := by
          simp only [rowWords, wordBits] at *
          omega
        rw [h1] at hlen
        simpa using hlen
      have hpad' : ∀ j b : Nat, (wordBits ≤ b ∨ (w - wordBits) ≤ j * wordBits + b) →
          Nat.testBit (rest.getD j 0) b = false := by
        intro j b hjb
        have hb := hpad (j + 1) b ?_
        · simpa [List.getD_cons_succ] using hb
        · rcases hjb with hcase | hcase
          · exact Or.inl hcase
          · right
            simp only [wordBits] at *
            omega
      have ihr := ih (w - wordBits) hlen' hpad'
      have hr : List.range w =
          List.range wordBits ++ (List.range (w - wordBits)).map (fun b => wordBits + b) := by
        rw [← List.range_add]
        congr 1
        omega
      rw [List.map_cons, List.sum_cons, hr, List.countP_append]
      have hword : wordPop word =
          (List.range wordBits).countP
            (fun x => Nat.testBit ((word :: rest).getD (x / wordBits) 0) (x % wordBits)) := by
        simp only [wordPop]
        refine List.countP_congr ?_
        intro b hb
        rw [List.mem_range] at hb
        have hdiv : b / wordBits = 0 := Nat.div_eq_of_lt hb
        have hmod : b % wordBits = b := Nat.mod_eq_of_lt hb
        rw [hdiv, hmod, List.getD_cons_zero]
      have hrest2 : (List.map wordPop rest).sum =
          ((List.range (w - wordBits)).map (fun b => wordBits + b)).countP
            (fun x => Nat.testBit ((word :: rest).getD (x / wordBits) 0) (x % wordBits)) := by
        rw [List.countP_map, ihr]
        refine List.countP_congr ?_
        intro x _
        simp only [Function.comp_apply]
        have hdiv : (wordBits + x) / wordBits = x / wordBits + 1 := by
          simp only [wordBits] at *
          omega
        have hmod : (wordBits + x) % wordBits = x % wordBits := by
          simp only [wordBits] at *
          omega
        rw [hdiv, hmod, List.getD_cons_succ]
      rw [hword, hrest2]

theorem count_eq_of_padded (g : BitGrid) (hp : padded g) :
    g.count = (cellList g.width g.height).countP (fun c => g.get c.1 c.2) := by
  obtain ⟨hlen, hrow⟩ := hp
  rw [countP_cellList, BitGrid.count]
  have hmap : g.rows.map (fun row => (row.map wordPop).sum) =
      (List.range g.height).map (fun y => (((g.rows.getD y []).map wordPop)).sum) := by
    conv_lhs => rw [← map_getD_range g.rows []]
    rw [List.map_map, hlen]
    rfl
  rw [hmap]
  congr 1
  refine List.map_congr_left ?_
  intro y hy
  rw [List.mem_range] at hy
  have hy' : y < g.rows.length := by omega
  have hmem0 : g.rows.getD y [] ∈ g.rows := by
    rw [List.getD_eq_getElem _ _ hy']
    exact List.getElem_mem _
  obtain ⟨hrl, hrpad⟩ := hrow _ hmem0
  rw [rowPop_eq_countP _ g.width hrl hrpad]
  refine List.countP_congr ?_
  intro x hx
  rw [List.mem_range] at hx
  have hget : g.get (Int.ofNat x) (Int.ofNat y) =
      Nat.testBit ((g.rows.getD y []).getD (x / wordBits) 0) (x % wordBits) := by
    rw [BitGrid.get, if_pos]
    · simp
    · simp only [Int.ofNat_eq_natCast]
      omega
  rw [hget]

theorem padded_buildG (w h : Nat) (f : Nat → Nat → Bool) : padded (buildG w h f) := by
  constructor
  · simp [buildG]
  · intro row hrow
    rw [buildG] at hrow
    simp only [List.mem_map, List.mem_range] at hrow
    obtain ⟨y, hy, rfl⟩ := hrow
    refine ⟨buildRow_length w _, ?_⟩
    intro j b hjb
    rw [buildRow_testBit]
    rw [buildG_width] at hjb
    have hcond : ¬(j * wordBits + b < w ∧ b < wordBits) := by
      rintro ⟨h1, h2⟩
      rcases hjb with hcase | hcase <;> omega
    simp [hcond]

theorem padded_set (g : BitGrid) (x y : Int) (v : Bool) (hp : padded g) :
    padded (g.set x y v) := by
  obtain ⟨hlen, hrow⟩ := hp
  rw [BitGrid.set]
  by_cases hin : 0 ≤ x ∧ x < (g.width : Int) ∧ 0 ≤ y ∧ y < (g.height : Int)
  · rw [if_pos hin]
    obtain ⟨hx0, hxw, hy0, hyh⟩ := hin
    constructor
    · simpa using hlen
    · intro row hmem
      simp only at hmem
      rcases List.mem_or_eq_of_mem_set hmem with hold | hnew
      · exact hrow row hold
      · have hy' : y.toNat < g.rows.length := by omega
        have hmem0 : g.rows.getD y.toNat [] ∈ g.rows := by
          rw [List.getD_eq_getElem _ _ hy']
          exact List.getElem_mem _
        obtain ⟨hl0, hp0⟩ := hrow _ hmem0
        subst hnew
        constructor
        · simpa using hl0
        · intro j b hjb
          simp only at hjb
          rw [List.getD_eq_getElem?_getD, List.getElem?_set]
          by_cases hjj : x.toNat / wordBits = j
          · rw [if_pos hjj]
            subst hjj
            by_cases hlt : x.toNat / wordBits < (g.rows.getD y.toNat []).length
            · rw [if_pos hlt]
              simp only [Option.getD_some]
              have hold := hp0 (x.toNat / wordBits) b hjb
              have hb0 : x.toNat % wordBits < wordBits := by
                simp only [wordBits]
                omega
              have hx : x.toNat / wordBits * wordBits + x.toNat % wordBits = x.toNat := by
                simp only [wordBits] at *
                omega
              have hne : x.toNat % wordBits ≠ b := by
                intro hcontra
                rcases hjb with hcase | hcase
                · omega
                · rw [← hcontra] at hcase
                  omega
              cases v with
              | true =>
                rw [setWordBit, if_pos rfl, Nat.testBit_lor, hold, Nat.testBit_two_pow]
                simp [hne]
              | false =>
                rw [setWordBit, if_neg (by simp), Nat.testBit_ldiff, hold]
                rfl
            · rw [if_neg hlt]
              simp
          · rw [if_neg hjj]
            rw [← List.getD_eq_getElem?_getD]
            exact hp0 j b hjb
  · rw [if_neg hin]
    exact ⟨hlen, hrow⟩

/-- C8: every BitGrid operation (create, set, fill, clear, combine with any op
and offset, dilate, erode) preserves the invariant that padding bits beyond
the grid width are zero, and consequently `count()` on any reachable grid
counts exactly the set addressable bits — padding bits never contribute. -/
theorem reachable_padded_count (g : BitGrid) (hr : Reachable g) :
    padded g ∧
      g.count = (cellList g.width g.height).countP (fun c => g.get c.1 c.2) := by
  have hpad : padded g := by
    induction hr with
    | ofCreate w0 h0 g0 hok =>
      rw [create] at hok
      by_cases hneg : w0 < 0 ∨ h0 < 0
      · rw [if_pos hneg] at hok
        cases hok
      · rw [if_neg hneg] at hok
        have hg : buildG w0.toNat h0.toNat (fun _ _ => false) = g0 := by
          injection hok
        rw [← hg]
        exact padded_buildG _ _ _
    | ofSet g0 x y v _ ih => exact padded_set g0 x y v ih
    | ofFill g0 _ _ => exact padded_buildG _ _ _
    | ofClear g0 _ _ => exact padded_buildG _ _ _
    | ofCombine g0 other op ox oy _ _ => exact padded_buildG _ _ _
    | ofDilate g0 _ _ => exact padded_buildG _ _ _
    | ofErode g0 _ _ => exact padded_buildG _ _ _
  exact ⟨hpad, count_eq_of_padded g hpad⟩

theorem reachable_padded_count_witness :
    padded ((buildG 2 2 (fun _ _ => false)).set 1 1 true) ∧
      ((buildG 2 2 (fun _ _ => false)).set 1 1 true).count =
        (cellList ((buildG 2 2 (fun _ _ => false)).set 1 1 true).width
            ((buildG 2 2 (fun _ _ => false)).set 1 1 true).height).countP
          (fun c => ((buildG 2 2 (fun _ _ => false)).set 1 1 true).get c.1 c.2) :=
  reachable_padded_count _
    (Reachable.ofSet _ 1 1 true (Reachable.ofCreate 2 2 _ rfl))

/-- C4: `create(width, height)` fails with `InvalidDimension` exactly when a
dimension is negative, producing no grid; for nonnegative dimensions it
returns a grid with every addressable bit 0 and `count() = 0`. -/
theorem create_spec (w h : Int) :
    ((w < 0 ∨ h < 0) ↔ create w h = .error .InvalidDimension) ∧
      (0 ≤ w → 0 ≤ h → ∃ g : BitGrid, create w h = .ok g ∧
        (∀ x y : Int, g.get x y = false) ∧ g.count = 0) := by
  constructor
  · constructor
    · intro hneg
      rw [create, if_pos hneg]
    · intro herr
      by_contra hc
      rw [create, if_neg hc] at herr
      cases herr
  · intro hw hh
    refine ⟨buildG w.toNat h.toNat (fun _ _ => false), ?_, ?_, ?_⟩
    · rw [create, if_neg (by omega)]
    · intro x y
      rw [get_buildG, ite_self]
    · rw [count_eq_of_padded _ (padded_buildG _ _ _), List.countP_eq_zero]
      intro c _
      rw [get_buildG, ite_self]
      simp

theorem create_spec_witness :
    create (-1) 3 = .error .InvalidDimension ∧
      ∃ g : BitGrid, create 2 3 = .ok g ∧
        (∀ x y : Int, g.get x y = false) ∧ g.count = 0 :=
  ⟨(create_spec (-1) 3).1.mp (Or.inl (by decide)),
    (create_spec 2 3).2 (by decide) (by decide)⟩

/-- C5: out-of-range `get` returns false and out-of-range `set` is a no-op;
neither signals an error. -/
theorem get_set_out_of_range (g : BitGrid) (x y : Int) (v : Bool)
    (h : x < 0 ∨ (g.width : Int) ≤ x ∨ y < 0 ∨ (g.height : Int) ≤ y) :
    g.get x y = false ∧ g.set x y v = g := by
  have hneg : ¬(0 ≤ x ∧ x < (g.width : Int) ∧ 0 ≤ y ∧ y < (g.height : Int)) := by
    omega
  exact ⟨get_out_of_range g x y hneg, by rw [BitGrid.set, if_neg hneg]⟩

theorem get_set_out_of_range_witness :
    (buildG 2 2 (fun _ _ => true)).get 5 0 = false ∧
      (buildG 2 2 (fun _ _ => true)).set 5 0 true = buildG 2 2 (fun _ _ => true) :=
  get_set_out_of_range (buildG 2 2 (fun _ _ => true)) 5 0 true (by decide)

/-- C10: the macro `pgMask_AsBitmap` yields exactly the `mask` field of the
object and leaves the object (including `bufdata`) unchanged. -/
theorem pgMask_AsBitmap_spec (m : pgMaskObject) :
    (pgMask_AsBitmap m).1 = m.mask ∧ (pgMask_AsBitmap m).2 = m :=
  ⟨rfl, rfl⟩

theorem foldl_proj_preserved {σ γ τ : Type} (P : σ → τ) (step : σ → γ → σ)
    (hstep : ∀ st c, P (step st c) = P st) :
    ∀ (l : List γ) (s : σ), P (l.foldl step s) = P s := by
  intro l
  induction l with
  | nil => intro s; rfl
  | cons a t ih =>
    intro s
    rw [List.foldl_cons, ih, hstep]

/-- C9: the two-grid scans (overlap area, overlap existence, first overlap
point) leave both grids unchanged, and the in-place combine loop leaves its
`other` argument unchanged, for every op and offset. -/
theorem loops_do_not_mutate_other (A B : BitGrid) (dx dy : Int) (op : BitOp) :
    (overlapAreaLoop (A, B) dx dy).2 = (A, B) ∧
      (overlapExistsLoop (A, B) dx dy).2 = (A, B) ∧
      (firstOverlapLoop (A, B) dx dy).2 = (A, B) ∧
      (combineLoop (A, B) op dx dy).2 = B := by
  refine ⟨?_, ?_, ?_, ?_⟩
  · unfold overlapAreaLoop
    exact foldl_proj_preserved Prod.snd
      (fun (st : Nat × (BitGrid × BitGrid)) (c : Int × Int) =>
        (st.1 + if (st.2.1.get c.1 c.2 && st.2.2.get (c.1 - dx) (c.2 - dy)) = true
          then 1 else 0, st.2))
      (fun st c => rfl) _ _
  · unfold overlapExistsLoop
    exact foldl_proj_preserved Prod.snd
      (fun (st : Bool × (BitGrid × BitGrid)) (c : Int × Int) =>
        (st.1 || st.2.1.get c.1 c.2 && st.2.2.get (c.1 - dx) (c.2 - dy), st.2))
      (fun st c => rfl) _ _
  · unfold firstOverlapLoop
    exact foldl_proj_preserved Prod.snd
      (fun (st : Option (Int × Int) × (BitGrid × BitGrid)) (c : Int × Int) =>
        (match st.1 with
          | some p => some p
          | none =>
            if (st.2.1.get c.1 c.2 && st.2.2.get (c.1 - dx) (c.2 - dy)) = true then some c
            else none,
          st.2))
      (fun st c => rfl) _ _
  · unfold combineLoop
    exact foldl_proj_preserved Prod.snd
      (fun (st : BitGrid × BitGrid) (c : Int × Int) =>
        (st.1.set c.1 c.2 (applyOp op (st.1.get c.1 c.2) (st.2.get (c.1 - dx) (c.2 - dy))),
          st.2))
      (fun st c => rfl) _ _

theorem buildG_congr (w h : Nat) (f f2 : Nat → Nat → Bool)
    (hf : ∀ x y : Nat, x < w → y < h → f x y = f2 x y) :
    buildG w h f = buildG w h f2 := by
  simp only [buildG, BitGrid.mk.injEq, true_and]
  refine List.map_congr_left ?_
  intro y hy
  rw [List.mem_range] at hy
  simp only [buildRow]
  refine List.map_congr_left ?_
  intro j _
  congr 3
  refine List.map_congr_left ?_
  intro x hx
  rw [List.mem_range] at hx
  exact hf x y hx hy

theorem get_combine (g other : BitGrid) (op : BitOp) (ox oy x y : Int) :
    (g.combine other op ox oy).get x y =
      if 0 ≤ x ∧ x < (g.width : Int) ∧ 0 ≤ y ∧ y < (g.height : Int) then
        applyOp op (g.get x y) (other.get (x - ox) (y - oy))
      else false := by
  unfold BitGrid.combine
  rw [get_buildG]
  by_cases hin : 0 ≤ x ∧ x < (g.width : Int) ∧ 0 ≤ y ∧ y < (g.height : Int)
  · rw [if_pos hin, if_pos hin]
    obtain ⟨hx0, _, hy0, _⟩ := hin
    rw [Int.toNat_of_nonneg hx0, Int.toNat_of_nonneg hy0]
  · rw [if_neg hin, if_neg hin]

/-- C2: combining with `B` by OR at offset (0,0) and then by DIFF at (0,0)
yields exactly the same grid as combining with `B` by DIFF directly:
`(A OR B) DIFF B = A DIFF B`. -/
theorem combine_or_diff (A B : BitGrid) :
    (A.combine B .or 0 0).combine B .diff 0 0 = A.combine B .diff 0 0 := by
  unfold BitGrid.combine
  simp only [buildG_width, buildG_height]
  refine buildG_congr _ _ _ _ ?_
  intro x y hx hy
  rw [get_buildG, if_pos (by omega)]
  rw [Int.toNat_natCast, Int.toNat_natCast]
  simp only [applyOp]
  cases A.get (Int.ofNat x) (Int.ofNat y) <;>
    cases B.get ((Int.ofNat x) - 0) ((Int.ofNat y) - 0) <;> rfl

/-- C3: `overlap_area(A, B, dx, dy) = overlap_area(B, A, -dx, -dy)` for all
grids and all (possibly negative, possibly non-overlapping) offsets. -/
theorem overlapArea_symm (A B : BitGrid) (dx dy : Int) :
    overlapArea A B dx dy = overlapArea B A (-dx) (-dy) := by
  unfold overlapArea BitGrid.cells
  rw [List.countP_eq_length_filter, List.countP_eq_length_filter]
  have hinj : Function.Injective (fun c : Int × Int => (c.1 - dx, c.2 - dy)) := by
    intro a b hab
    have h1 := congrArg Prod.fst hab
    have h2 := congrArg Prod.snd hab
    simp only at h1 h2
    have ha : a.1 = b.1 := by omega
    have hb : a.2 = b.2 := by omega
    exact Prod.ext ha hb
  have hperm : (((cellList A.width A.height).filter
        (fun c => A.get c.1 c.2 && B.get (c.1 - dx) (c.2 - dy))).map
        (fun c => (c.1 - dx, c.2 - dy))).Perm
      ((cellList B.width B.height).filter
        (fun c => B.get c.1 c.2 && A.get (c.1 - -dx) (c.2 - -dy))) := by
    rw [List.perm_ext_iff_of_nodup
      ((List.Nodup.filter _ (nodup_cellList _ _)).map hinj)
      (List.Nodup.filter _ (nodup_cellList _ _))]
    intro c
    obtain ⟨u, v⟩ := c
    simp only [List.mem_map, List.mem_filter, Bool.and_eq_true]
    constructor
    · rintro ⟨⟨p, q⟩, ⟨_, hA, hB⟩, heq⟩
      have h1 : p - dx = u := by
        have := congrArg Prod.fst heq
        simpa using this
      have h2 : q - dy = v := by
        have := congrArg Prod.snd heq
        simpa using this
      have hBuv : B.get u v = true := by
        rw [← h1, ← h2]
        exact hB
      refine ⟨mem_cells_of_get B hBuv, hBuv, ?_⟩
      have hp : u - -dx = p := by omega
      have hq : v - -dy = q := by omega
      rw [hp, hq]
      exact hA
    · rintro ⟨_, hB, hA⟩
      have hp : u - -dx = u + dx := by omega
      have hq : v - -dy = v + dy := by omega
      rw [hp, hq] at hA
      have hAmem : (u + dx, v + dy) ∈ cellList A.width A.height :=
        mem_cells_of_get A hA
      refine ⟨(u + dx, v + dy), ⟨hAmem, hA, ?_⟩, ?_⟩
      · have h1 : u + dx - dx = u := by omega
        have h2 : v + dy - dy = v := by omega
        rw [h1, h2]
        exact hB
      · have h1 : u + dx - dx = u := by omega
        have h2 : v + dy - dy = v := by omega
        rw [h1, h2]
  have hlen := hperm.length_eq
  rw [List.length_map] at hlen
  exact hlen

theorem get_dilate (g : BitGrid) (x y : Int) :
    g.dilate.get x y =
      if 0 ≤ x ∧ x < (g.width : Int) ∧ 0 ≤ y ∧ y < (g.height : Int) then
        (g.get x y || mooreOffsets.any (fun d => g.get (x + d.1) (y + d.2)))
      else false := by
  unfold BitGrid.dilate
  rw [get_buildG]
  by_cases hin : 0 ≤ x ∧ x < (g.width : Int) ∧ 0 ≤ y ∧ y < (g.height : Int)
  · rw [if_pos hin, if_pos hin, Int.toNat_of_nonneg hin.1, Int.toNat_of_nonneg hin.2.2.1]
  · rw [if_neg hin, if_neg hin]

/-- C7 counterexample: on the 1×1 all-set grid the single (border) pixel is
set in `G` but cleared in `erode(dilate(G))`, so the closing-superset claim
fails as stated for non-empty grids. -/
theorem erode_dilate_not_superset :
    (buildG 1 1 (fun _ _ => true)).get 0 0 = true ∧
      ((buildG 1 1 (fun _ _ => true)).dilate.erode).get 0 0 = false := by
  decide

/-- C7 amended: every set bit whose eight neighbours all lie inside the grid
(an interior pixel) remains set in `erode(dilate(G))`; only border pixels can
be lost, as the counterexample forces. -/
theorem erode_dilate_superset_interior (g : BitGrid) (x y : Int)
    (hget : g.get x y = true)
    (hx1 : 1 ≤ x) (hx2 : x + 1 < (g.width : Int))
    (hy1 : 1 ≤ y) (hy2 : y + 1 < (g.height : Int)) :
    (g.dilate.erode).get x y = true := by
  have hwd : g.dilate.width = g.width := rfl
  have hhd : g.dilate.height = g.height := rfl
  unfold BitGrid.erode
  rw [get_buildG]
  have hcond : 0 ≤ x ∧ x < (g.dilate.width : Int) ∧ 0 ≤ y ∧ y < (g.dilate.height : Int) := by
    rw [hwd, hhd]
    omega
  rw [if_pos hcond, Int.toNat_of_nonneg (by omega : (0:Int) ≤ x),
    Int.toNat_of_nonneg (by omega : (0:Int) ≤ y)]
  rw [Bool.and_eq_true, List.all_eq_true]
  constructor
  · rw [get_dilate, if_pos (by omega)]
    rw [hget]
    rfl
  · intro d hd
    have hb := (by decide :
      ∀ d ∈ mooreOffsets, -1 ≤ d.1 ∧ d.1 ≤ 1 ∧ -1 ≤ d.2 ∧ d.2 ≤ 1) d hd
    have hmem := (by decide :
      ∀ d ∈ mooreOffsets, ((-d.1, -d.2) : Int × Int) ∈ mooreOffsets) d hd
    rw [get_dilate, if_pos (by omega), Bool.or_eq_true]
    right
    rw [List.any_eq_true]
    refine ⟨(-d.1, -d.2), hmem, ?_⟩
    show g.get (x + d.1 + -d.1) (y + d.2 + -d.2) = true
    have h1 : x + d.1 + -d.1 = x := by omega
    have h2 : y + d.2 + -d.2 = y := by omega
    rw [h1, h2]
    exact hget

theorem erode_dilate_superset_interior_witness :
    ((buildG 3 3 (fun _ _ => true)).dilate.erode).get 1 1 = true :=
  erode_dilate_superset_interior (buildG 3 3 (fun _ _ => true)) 1 1
    (by decide) (by decide) (by decide) (by decide) (by decide)

/-- C6: the contour tracer fails with `EmptyRegion` exactly when the grid has
no set bits (and produces no outline then), and on a grid whose only set bit
is the single pixel `p` it succeeds with the one-point outline `[p]`. -/
theorem contourTrace_spec (g : BitGrid) :
    (contourTrace g = .error .EmptyRegion ↔ ∀ c ∈ g.cells, g.get c.1 c.2 = false) ∧
      (∀ p : Int × Int, g.get p.1 p.2 = true →
        (∀ c ∈ g.cells, g.get c.1 c.2 = true → c = p) →
        contourTrace g = .ok [p]) := by
  constructor
  · cases hfind : findFirstBit g with
    | none =>
      constructor
      · intro _
        rw [findFirstBit, List.find?_eq_none] at hfind
        intro c hc
        simpa using hfind c hc
      · intro _
        rw [contourTrace, hfind]
    | some p0 =>
      constructor
      · intro herr
        rw [contourTrace, hfind] at herr
        cases herr
      · intro hall
        have hp0 := List.find?_some hfind
        have hmem := List.mem_of_find?_eq_some hfind
        have := hall p0 hmem
        rw [hp0] at this
        cases this
  · intro p hp huniq
    have hpc : p ∈ g.cells := by
      have hm := mem_cells_of_get g hp
      simpa using hm
    have hfind : findFirstBit g = some p := by
      rw [findFirstBit]
      cases hf : g.cells.find? (fun c => g.get c.1 c.2) with
      | none =>
        rw [List.find?_eq_none] at hf
        exact absurd hp (by simpa using hf p hpc)
      | some q =>
        have hq1 := List.find?_some hf
        have hq2 := List.mem_of_find?_eq_some hf
        rw [huniq q hq2 hq1]
    rw [contourTrace, hfind]
    have hdir : findDir g p 0 = none := by
      rw [findDir, List.find?_eq_none]
      intro k hk
      rw [List.mem_range] at hk
      intro hcontra
      have hne := (by decide :
        ∀ j ∈ List.range 8, mooreOffsets.getD j ((0, 0) : Int × Int) ≠ (0, 0))
        ((0 + k) % 8) (by rw [List.mem_range]; omega)
      have hmem := mem_cells_of_get g hcontra
      have heq := huniq _ hmem hcontra
      have h1 := congrArg Prod.fst heq
      have h2 := congrArg Prod.snd heq
      simp only at h1 h2
      refine hne (Prod.ext ?_ ?_)
      · show (mooreOffsets.getD ((0 + k) % 8) ((0, 0) : Int × Int)).1 = (0 : Int)
        omega
      · show (mooreOffsets.getD ((0 + k) % 8) ((0, 0) : Int × Int)).2 = (0 : Int)
        omega
    have hfuel : g.width * g.height * 8 + 8 = (g.width * g.height * 8 + 7) + 1 := by omega
    rw [hfuel]
    simp only [mooreLoop, hdir]

theorem contourTrace_spec_witness :
    contourTrace (buildG 3 3 (fun x y => decide (x = 1 ∧ y = 1))) = .ok [(1, 1)] ∧
      contourTrace (buildG 2 2 (fun _ _ => false)) = .error .EmptyRegion :=
  ⟨(contourTrace_spec _).2 (1, 1) (by decide) (by decide),
    (contourTrace_spec _).1.mpr (by decide)⟩

theorem floodFill_subset (g : BitGrid) (conn : Connectivity) :
    ∀ (fuel : Nat) (q vis comp : List (Int × Int)),
      comp ⊆ floodFill g conn fuel q vis comp := by
  intro fuel
  induction fuel with
  | zero =>
    intro q vis comp
    simp [floodFill]
  | succ n ih =>
    intro q vis comp
    cases q with
    | nil => simp [floodFill]
    | cons c rest =>
      simp only [floodFill]
      by_cases hc : g.get c.1 c.2 = true ∧ c ∉ vis ∧ c ∉ comp
      · rw [if_pos hc]
        intro a ha
        exact ih (rest ++ nbrs conn c) vis (comp ++ [c]) (List.mem_append.mpr (Or.inl ha))
      · rw [if_neg hc]
        exact ih rest vis comp

theorem floodFill_sound (g : BitGrid) (conn : Connectivity) :
    ∀ (fuel : Nat) (q vis comp : List (Int × Int)),
      comp.Nodup → (∀ c ∈ comp, g.get c.1 c.2 = true ∧ c ∉ vis) →
      (floodFill g conn fuel q vis comp).Nodup ∧
        ∀ c ∈ floodFill g conn fuel q vis comp, g.get c.1 c.2 = true ∧ c ∉ vis := by
  intro fuel
  induction fuel with
  | zero =>
    intro q vis comp h1 h2
    simp only [floodFill]
    exact ⟨h1, h2⟩
  | succ n ih =>
    intro q vis comp h1 h2
    cases q with
    | nil =>
      simp only [floodFill]
      exact ⟨h1, h2⟩
    | cons c rest =>
      simp only [floodFill]
      by_cases hc : g.get c.1 c.2 = true ∧ c ∉ vis ∧ c ∉ comp
      · rw [if_pos hc]
        refine ih _ _ _ ?_ ?_
        · rw [List.nodup_append]
          refine ⟨h1, List.nodup_singleton c, ?_⟩
          intro a ha hb
          rw [List.mem_singleton] at hb
          subst hb
          exact hc.2.2 ha
        · intro a ha
          rw [List.mem_append] at ha
          rcases ha with ha | ha
          · exact h2 a ha
          · rw [List.mem_singleton] at ha
            subst ha
            exact ⟨hc.1, hc.2.1⟩
      · rw [if_neg hc]
        exact ih _ _ _ h1 h2

theorem floodFill_seed (g : BitGrid) (conn : Connectivity) (fuel : Nat)
    (q vis : List (Int × Int)) (c : Int × Int)
    (hset : g.get c.1 c.2 = true) (hvis : c ∉ vis) :
    c ∈ floodFill g conn (fuel + 1) (c :: q) vis [] := by
  simp only [floodFill]
  rw [if_pos ⟨hset, hvis, by simp⟩]
  exact floodFill_subset g conn fuel _ _ _ (by simp)

theorem labelScan_inv (g : BitGrid) (conn : Connectivity) :
    ∀ (cells vis : List (Int × Int)) (acc : List (List (Int × Int))),
      vis = acc.flatten →
      vis.Nodup →
      (∀ c ∈ vis, g.get c.1 c.2 = true) →
      (∀ comp ∈ acc, comp ≠ []) →
      ((labelScan g conn cells vis acc).1 = (labelScan g conn cells vis acc).2.flatten ∧
        (labelScan g conn cells vis acc).1.Nodup ∧
        (∀ c ∈ (labelScan g conn cells vis acc).1, g.get c.1 c.2 = true) ∧
        (∀ comp ∈ (labelScan g conn cells vis acc).2, comp ≠ []) ∧
        (∀ c ∈ vis, c ∈ (labelScan g conn cells vis acc).1) ∧
        (∀ c ∈ cells, g.get c.1 c.2 = true → c ∈ (labelScan g conn cells vis acc).1)) := by
  intro cells
  induction cells with
  | nil =>
    intro vis acc hva hnd hset hne
    simp only [labelScan]
    exact ⟨hva, hnd, hset, hne, fun c hc => hc,
      fun c hc => absurd hc (List.not_mem_nil c)⟩
  | cons c rest ih =>
    intro vis acc hva hnd hset hne
    simp only [labelScan]
    by_cases hc : g.get c.1 c.2 = true ∧ c ∉ vis
    · rw [if_pos hc]
      have hsound := floodFill_sound g conn (8 * (g.width * g.height) + 1) [c] vis []
        List.nodup_nil (by simp)
      obtain ⟨hcompnd, hcompprop⟩ := hsound
      have hseed : c ∈ floodFill g conn (8 * (g.width * g.height) + 1) [c] vis [] :=
        floodFill_seed g conn (8 * (g.width * g.height)) [] vis c hc.1 hc.2
      have hpre1 : vis ++ floodFill g conn (8 * (g.width * g.height) + 1) [c] vis [] =
          (acc ++ [floodFill g conn (8 * (g.width * g.height) + 1) [c] vis []]).flatten := by
        rw [List.flatten_append, ← hva]
        simp
      have hpre2 : (vis ++ floodFill g conn (8 * (g.width * g.height) + 1) [c] vis []).Nodup := by
        rw [List.nodup_append]
        exact ⟨hnd, hcompnd, fun a ha hb => (hcompprop a hb).2 ha⟩
      have hpre3 : ∀ a ∈ vis ++ floodFill g conn (8 * (g.width * g.height) + 1) [c] vis [],
          g.get a.1 a.2 = true := by
        intro a ha
        rw [List.mem_append] at ha
        rcases ha with ha | ha
        · exact hset a ha
        · exact (hcompprop a ha).1
      have hpre4 : ∀ comp ∈ acc ++ [floodFill g conn (8 * (g.width * g.height) + 1) [c] vis []],
          comp ≠ [] := by
        intro comp hcm
        rw [List.mem_append] at hcm
        rcases hcm with hcm | hcm
        · exact hne comp hcm
        · rw [List.mem_singleton] at hcm
          subst hcm
          exact List.ne_nil_of_mem hseed
      obtain ⟨r1, r2, r3, r4, r5, r6⟩ := ih _ _ hpre1 hpre2 hpre3 hpre4
      refine ⟨r1, r2, r3, r4, ?_, ?_⟩
      · intro a ha
        exact r5 a (List.mem_append.mpr (Or.inl ha))
      · intro a ha hgeta
        rw [List.mem_cons] at ha
        rcases ha with rfl | ha
        · exact r5 a (List.mem_append.mpr (Or.inr hseed))
        · exact r6 a ha hgeta
    · rw [if_neg hc]
      obtain ⟨r1, r2, r3, r4, r5, r6⟩ := ih vis acc hva hnd hset hne
      refine ⟨r1, r2, r3, r4, r5, ?_⟩
      intro a ha hgeta
      rw [List.mem_cons] at ha
      rcases ha with rfl | ha
      · have hav : a ∈ vis := by
          by_contra hnv
          exact hc ⟨hgeta, hnv⟩
        exact r5 a hav
      · exact r6 a ha hgeta

theorem countP_mem_of_flatten_nodup (c : Int × Int) :
    ∀ (L : List (List (Int × Int))), L.flatten.Nodup →
      L.countP (fun comp => decide (c ∈ comp)) = if c ∈ L.flatten then 1 else 0 := by
  intro L
  induction L with
  | nil => simp
  | cons hd t ih =>
    intro hnd
    rw [List.flatten_cons, List.nodup_append] at hnd
    obtain ⟨hh, ht, hdisj⟩ := hnd
    rw [List.countP_cons, ih ht]
    by_cases hch : c ∈ hd
    · have hct : c ∉ t.flatten := fun hcf => hdisj hch hcf
      simp [hch, hct, List.flatten_cons]
    · by_cases hct : c ∈ t.flatten <;>
        simp [hch, hct, List.flatten_cons]

theorem compLE_trans (a b c : List (Int × Int))
    (h1 : compLE a b = true) (h2 : compLE b c = true) : compLE a c = true := by
  simp only [compLE, lexLeYX, Bool.or_eq_true, Bool.and_eq_true, decide_eq_true_eq] at *
  omega

theorem compLE_total (a b : List (Int × Int)) : (compLE a b || compLE b a) = true := by
  simp only [compLE, lexLeYX, Bool.or_eq_true, Bool.and_eq_true, decide_eq_true_eq]
  omega

/-- C1: the components returned by the labeller partition the set bits —
every set bit lies in exactly one component and unset bits in none, the
component sizes sum to `count()`, and the output is sorted by the
descending-size order with the `(y,x)`-lexicographic tie-break. -/
theorem componentLabeler_spec (g : BitGrid) (conn : Connectivity) (hp : padded g) :
    (∀ c : Int × Int,
        (componentLabeler g conn).countP (fun comp => decide (c ∈ comp)) =
          if g.get c.1 c.2 = true then 1 else 0) ∧
      ((componentLabeler g conn).map List.length).sum = g.count ∧
      List.Pairwise (fun a b => compLE a b = true) (componentLabeler g conn) := by
  obtain ⟨r1, r2, r3, r4, r5, r6⟩ :=
    labelScan_inv g conn g.cells [] [] rfl List.nodup_nil (by simp) (by simp)
  have hmemiff : ∀ c : Int × Int,
      c ∈ (labelScan g conn g.cells [] []).1 ↔ g.get c.1 c.2 = true := by
    intro c
    constructor
    · exact fun hc => r3 c hc
    · intro hget
      refine r6 c ?_ hget
      have hm := mem_cells_of_get g hget
      simpa using hm
  have hperm := List.mergeSort_perm (labelScan g conn g.cells [] []).2 compLE
  have hfnd : (labelScan g conn g.cells [] []).2.flatten.Nodup := r1 ▸ r2
  refine ⟨?_, ?_, ?_⟩
  · intro c
    unfold componentLabeler
    rw [List.Perm.countP_eq _ hperm]
    rw [countP_mem_of_flatten_nodup c _ hfnd]
    by_cases hget : g.get c.1 c.2 = true
    · rw [if_pos hget, if_pos (r1 ▸ (hmemiff c).mpr hget)]
    · rw [if_neg hget, if_neg]
      intro hmem
      exact hget ((hmemiff c).mp (r1 ▸ hmem))
  · unfold componentLabeler
    rw [(hperm.map List.length).sum_eq, ← List.length_flatten, ← r1,
      count_eq_of_padded g hp]
    have hpermf : (labelScan g conn g.cells [] []).1.Perm
        ((cellList g.width g.height).filter (fun c => g.get c.1 c.2)) := by
      rw [List.perm_ext_iff_of_nodup r2 (List.Nodup.filter _ (nodup_cellList _ _))]
      intro c
      rw [List.mem_filter, hmemiff]
      constructor
      · intro hget
        refine ⟨?_, hget⟩
        have hm := mem_cells_of_get g hget
        simpa using hm
      · exact fun hpair => hpair.2
    rw [hpermf.length_eq, List.countP_eq_length_filter]
  · unfold componentLabeler
    exact List.sorted_mergeSort
      (fun a b c => compLE_trans a b c) (fun a b => compLE_total a b) _

theorem componentLabeler_spec_witness :
    ((componentLabeler (buildG 2 2 (fun x y => decide (x = y))) .four).map List.length).sum =
      (buildG 2 2 (fun x y => decide (x = y))).count :=
  (componentLabeler_spec (buildG 2 2 (fun x y => decide (x = y))) .four
    (padded_buildG 2 2 (fun x y => decide (x = y)))).2.1
